import Mathlib

/-!
# The build orchestration of `gulpfile.js`

A shallow embedding of `src/gulpfile.js`: the base bundler configuration
`buildConfig`, the two builders `buildCSS` and `buildModules`, the
orchestrator `regenerate`, the task entry points (`server`, `buildIIFE`,
`buildNode`, `build`) and the two handlers that `dev` registers on its
watcher.

The external collaborators (`fs-extra`, `esbuild`, `gulp`, `shelljs`,
`./server.js`) are not part of the file.  Every call into one of them is an
`Action`; a task appends the actions it issues to the log of the `World`, and
an environment `Env` decides, from the log so far, whether an action rejects,
which bytes a bundler call stores at its outfile, which further files it emits
beside it, and what the clock reads.  `await` is the
bind of the `Async` monad: a rejected action ends the task with that
rejection, and the world stays as it stood at that moment.
-/

namespace Gulpfile

/-! ## Data model -/

/-- A flag of an options object; `none` is a flag that is absent, which
JavaScript reads as `undefined`. -/
abbrev Flag := Option Bool

/-- JavaScript truthiness of a flag, as tested by `if (options.iife)`. -/
def truthy : Flag → Bool
  | some b => b
  | none => false

/-- The flag set handed to the builders: `{ iife, node, minify }`. -/
structure Options where
  iife : Flag
  node : Flag
  minify : Flag
deriving DecidableEq, Repr

/-- The entries of the `plugins` array of `buildConfig`. -/
inductive Plugin where
  | inlineImage (limit : Int)
  | sassPlugin
deriving DecidableEq, Repr

/-- The object handed to `esbuild.build`.  The first ten fields and `plugins`
are the fields of the base `buildConfig`; `format`, `globalName`, `platform`,
`define` and `outfile` are the fields that the builders add (`none`, or the
empty list, when the object has no such key). -/
structure Config where
  entryPoints : List String
  bundle : Bool
  color : Bool
  legalComments : String
  logLimit : Nat
  target : String
  minify : Flag
  sourcemap : Bool
  write : Bool
  logLevel : String
  plugins : List Plugin
  format : Option String
  globalName : Option String
  platform : Option String
  define : List (String × String)
  outfile : Option String
deriving DecidableEq, Repr

/-- The constant `buildConfig` of the source, as the module initialises it. -/
def buildConfig : Config where
  entryPoints := ["src/index.js"]
  bundle := true
  color := true
  legalComments := "inline"
  logLimit := 0
  target := "es2019"
  minify := some false
  sourcemap := false
  write := true
  logLevel := "info"
  plugins := [Plugin.inlineImage (-1), Plugin.sassPlugin]
  format := none
  globalName := none
  platform := none
  define := []
  outfile := none

/-- The function `path.join` on two relative segments. -/
def path_join (a b : String) : String := a ++ "/" ++ b

/-- The `awaitWriteFinish` entry of the options of `gulp.watch`. -/
structure AwaitWriteFinish where
  stabilityThreshold : Nat
  pollInterval : Nat
deriving DecidableEq, Repr

/-- The options object of `gulp.watch`. -/
structure WatchOptions where
  persistent : Bool
  awaitWriteFinish : AwaitWriteFinish
deriving DecidableEq, Repr

/-- A call into an external collaborator. -/
inductive Action where
  /-- Call `fse.remove(path)`. -/
  | remove (path : String)
  /-- Call `esbuild.build(cfg)`. -/
  | build (cfg : Config)
  /-- Call `startServer()` of `./server.js`. -/
  | startServer
  /-- Call `shell.echo(chalk.<color>(text))`. -/
  | echo (color : String) (text : String)
  /-- Call `gulp.watch(glob, opts)`. -/
  | watch (glob : String) (opts : WatchOptions)
deriving DecidableEq, Repr

/-- The error a rejected promise carries. -/
structure Rejection where
  message : String
deriving DecidableEq, Repr

/-- A file of the output tree: its bytes and the position in the log of the
action that wrote it (its modification time). -/
structure File where
  bytes : List Nat
  mtime : Nat
deriving DecidableEq, Repr

/-- The file system: what each path holds, if anything. -/
abbrev FS := String → Option File

/-- The state the tasks run in: the module-level object `buildConfig`, the
file system, and the log of the actions issued so far, oldest first. -/
structure World where
  buildConfig : Config
  fs : FS
  log : List Action

/-- The behaviour of the collaborators, each a function of the log so far:
`fails` says whether an action rejects and with what, `output` gives the bytes
a bundler call stores at its `outfile`, `siblings` lists the further files the
call emits with their bytes (the bundler puts a stylesheet that a JavaScript
entry imports in a file of its own next to the JavaScript outfile; what the
entry imports is not decided here), `now` is the reading of
`new Date().getTime()`. -/
structure Env where
  fails : List Action → Action → Option Rejection
  output : List Action → Config → List Nat
  siblings : List Action → Config → List (String × List Nat)
  now : List Action → Int

/-- The file system with `path` holding `file`. -/
def FS.write (fs : FS) (path : String) (file : File) : FS :=
  fun q => if q = path then some file else fs q

/-- The file system with nothing at `path`. -/
def FS.erase (fs : FS) (path : String) : FS :=
  fun q => if q = path then none else fs q

/-- The file system after each file of a list was stored, all with the
modification time `mtime`. -/
def FS.writeAll (fs : FS) (mtime : Nat) : List (String × List Nat) → FS
  | [] => fs
  | (path, bytes) :: rest => (fs.write path ⟨bytes, mtime⟩).writeAll mtime rest

/-- What a fulfilled action does to the file system.  `fse.remove` deletes the
path and is a no-op when nothing is there.  A bundler call with `write: true`
and an `outfile` stores the files the environment says it emits beside the
bundle, and the bundle itself at `outfile`.  The other actions leave the
output tree alone. -/
def effect (env : Env) (w : World) : Action → FS
  | Action.remove path => w.fs.erase path
  | Action.build cfg =>
    match cfg.write, cfg.outfile with
    | true, some path =>
      ((w.fs.writeAll w.log.length (env.siblings w.log cfg)).write path
        ⟨env.output w.log cfg, w.log.length⟩)
    | _, _ => w.fs
  | _ => w.fs

/-! ## Tasks -/

/-- An asynchronous computation: run in an environment and a world, it ends
fulfilled with a value or rejected, and leaves a world behind either way. -/
def Async (α : Type) : Type := Env → World → Except Rejection α × World

/-- A task that is already fulfilled. -/
def Async.pure {α : Type} (a : α) : Async α := fun _ w => (Except.ok a, w)

/-- Await `t`, then continue with `f`; a rejection of `t` is the rejection of
the whole and `f` is never started. -/
def Async.bind {α β : Type} (t : Async α) (f : α → Async β) : Async β := fun env w =>
  match t env w with
  | (Except.ok a, w1) => f a env w1
  | (Except.error e, w1) => (Except.error e, w1)

instance : Monad Async where
  pure := Async.pure
  bind := Async.bind

/-- The world after the action `a` was issued and rejected: the call is on
the log, the output tree is as before. -/
def World.rejected (w : World) (a : Action) : World :=
  { w with log := w.log ++ [a] }

/-- The world after the action `a` was issued and fulfilled: the call is on
the log and its effect has happened. -/
def World.fulfilled (env : Env) (w : World) (a : Action) : World :=
  { w with log := w.log ++ [a], fs := effect env w a }

/-- Issue one action and await it.  The action is logged whether it is
fulfilled or rejected; its effect happens only when it is fulfilled. -/
def perform (a : Action) : Async Unit := fun env w =>
  match env.fails w.log a with
  | some e => (Except.error e, w.rejected a)
  | none => (Except.ok (), w.fulfilled env a)

/-- Read the module-level object `buildConfig`. -/
def getBuildConfig : Async Config := fun _ w => (Except.ok w.buildConfig, w)

/-- Evaluate `new Date().getTime()`. -/
def getTime : Async Int := fun env w => (Except.ok (env.now w.log), w)

/-- The function `buildCSS` of the source. -/
def buildCSS (options : Options) : Async Unit := do
  let base ← getBuildConfig
  perform (Action.build { base with
    minify := options.minify
    entryPoints := ["src/themes/index.scss"]
    outfile := some (path_join "dist" "lib.min.css") })

/-- The function `buildModules` of the source. -/
def buildModules (options : Options) : Async Unit := do
  -- Build IIFE
  if truthy options.iife then
    let base ← getBuildConfig
    perform (Action.build { base with
      format := some "iife"
      globalName := some "lib"
      outfile := some (path_join "dist" "lib.min.js") })
  -- Build Node
  if truthy options.node then
    let base ← getBuildConfig
    perform (Action.build { base with
      format := some "cjs"
      platform := some "node"
      define := [("TransformStream", "null")]
      outfile := some (path_join "dist" "index.cjs") })

/-- The function `regenerate` of the source; its second parameter `content`
is never read and is left out. -/
def regenerate (option : Options) : Async Unit := do
  perform (Action.remove "dist/lib.min.js")
  perform (Action.remove "dist/lib.min.css")
  buildModules option
  buildCSS option

/-- The combinator `gulp.series`: run the tasks in order, each after the one
before it has completed, and stop at the first that rejects. -/
def gulp_series : List (Async Unit) → Async Unit
  | [] => Async.pure ()
  | t :: ts => Async.bind t (fun _ => gulp_series ts)

/-- The function `startServer` imported from `./server.js`, seen from here as
one call. -/
def startServer : Async Unit := perform Action.startServer

/-- The task `server`. -/
def server : Async Unit := gulp_series [startServer]

/-- The flag set `{ iife: true }`. -/
def iifeOnly : Options := ⟨some true, none, none⟩

/-- The flag set `{ node: true }`. -/
def nodeOnly : Options := ⟨none, some true, none⟩

/-- The flag set `{ minify: true }`. -/
def minifyOnly : Options := ⟨none, none, some true⟩

/-- The task `buildIIFE`. -/
def buildIIFE : Async Unit :=
  gulp_series [buildModules iifeOnly, buildCSS minifyOnly]

/-- The task `buildNode`. -/
def buildNode : Async Unit :=
  gulp_series [buildModules nodeOnly, buildCSS minifyOnly]

/-- The task `build`. -/
def build : Async Unit :=
  gulp_series [buildModules iifeOnly, buildModules nodeOnly, buildCSS minifyOnly]

/-- The events of the watcher that `dev` listens to. -/
inductive WatchEvent where
  | ready
  | change
deriving DecidableEq, Repr

/-- The options `dev` passes to `gulp.watch`. -/
def devWatchOptions : WatchOptions := ⟨true, ⟨1000, 100⟩⟩

/-- The body of the task `dev` up to the return of the watcher: the banner
and the registration of the watch on `src`. -/
def dev : Async Unit := do
  perform (Action.echo "yellow" "============= start dev ==============")
  perform (Action.watch "src" devWatchOptions)

/-- The handler `dev` registers for an event of the watcher. -/
def devHandler : WatchEvent → Async Unit
  | WatchEvent.ready => do
    regenerate iifeOnly
    startServer
  | WatchEvent.change => do
    let now ← getTime
    regenerate iifeOnly
    let later ← getTime
    perform (Action.echo "green"
      ("regenerate lib takes " ++ toString (later - now) ++ " ms"))

/-- Delivery of one event: the emitter calls the handler and drops the promise
it returns, so a rejection inside a handler does not reach the emitter. -/
def emit (ev : WatchEvent) : Async Unit := fun env w =>
  (Except.ok (), (devHandler ev env w).2)

/-- Delivery of a sequence of events, one handler run after the other. -/
def emitAll : List WatchEvent → Async Unit
  | [] => Async.pure ()
  | ev :: evs => Async.bind (emit ev) (fun _ => emitAll evs)

/-- A session of `dev`: the task body, then the events the watcher delivers. -/
def devSession (events : List WatchEvent) : Async Unit :=
  Async.bind dev (fun _ => emitAll events)

/-! ## Reference runs

The configurations and action sequences that the tasks are compared with,
written out in full, and the run of a plain list of actions. -/

/-- The configuration of the browser bundle, every field written out. -/
def iifeConfig : Config where
  entryPoints := ["src/index.js"]
  bundle := true
  color := true
  legalComments := "inline"
  logLimit := 0
  target := "es2019"
  minify := some false
  sourcemap := false
  write := true
  logLevel := "info"
  plugins := [Plugin.inlineImage (-1), Plugin.sassPlugin]
  format := some "iife"
  globalName := some "lib"
  platform := none
  define := []
  outfile := some "dist/lib.min.js"

/-- The configuration of the server bundle, every field written out. -/
def nodeConfig : Config where
  entryPoints := ["src/index.js"]
  bundle := true
  color := true
  legalComments := "inline"
  logLimit := 0
  target := "es2019"
  minify := some false
  sourcemap := false
  write := true
  logLevel := "info"
  plugins := [Plugin.inlineImage (-1), Plugin.sassPlugin]
  format := some "cjs"
  globalName := none
  platform := some "node"
  define := [("TransformStream", "null")]
  outfile := some "dist/index.cjs"

/-- The configuration of the stylesheet build for a given `minify` value,
every field written out. -/
def cssConfig (minify : Flag) : Config where
  entryPoints := ["src/themes/index.scss"]
  bundle := true
  color := true
  legalComments := "inline"
  logLimit := 0
  target := "es2019"
  minify := minify
  sourcemap := false
  write := true
  logLevel := "info"
  plugins := [Plugin.inlineImage (-1), Plugin.sassPlugin]
  format := none
  globalName := none
  platform := none
  define := []
  outfile := some "dist/lib.min.css"

/-- The bundler calls of the module build for a flag set: the browser call if
and only if `iife` is set, then the server call if and only if `node` is set. -/
def modulesSteps (o : Options) : List Action :=
  (if truthy o.iife then [Action.build iifeConfig] else []) ++
  (if truthy o.node then [Action.build nodeConfig] else [])

/-- The steps of a regeneration for a flag set: the two removals, the module
build, the stylesheet build. -/
def regenerateSteps (o : Options) : List Action :=
  [Action.remove "dist/lib.min.js", Action.remove "dist/lib.min.css"] ++
    modulesSteps o ++ [Action.build (cssConfig o.minify)]

/-- Issue the actions of a list in order, each after the one before it was
fulfilled, and stop at the first that is rejected. -/
def runSeq : List Action → Async Unit
  | [] => Async.pure ()
  | a :: as => Async.bind (perform a) (fun _ => runSeq as)

/-- The actions of `steps` that get issued from a log `log`: all of them up to
and including the first one the environment rejects. -/
def issuedOf (env : Env) : List Action → List Action → List Action
  | _, [] => []
  | log, a :: as =>
    match env.fails log a with
    | some _ => [a]
    | none => a :: issuedOf env (log ++ [a]) as

/-- Whether the environment fulfils every action of `steps`, issued in order
from the log `log`. -/
def allFulfilled (env : Env) : List Action → List Action → Bool
  | _, [] => true
  | log, a :: as => (env.fails log a).isNone && allFulfilled env (log ++ [a]) as

/-- The world after every action of a list was issued and fulfilled. -/
def applyAll (env : Env) : List Action → World → World
  | [], w => w
  | a :: as, w => applyAll env as (w.fulfilled env a)

/-- The actions a task issues when run in `env` from `w`: what it appends to
the log. -/
def issued (t : Async Unit) (env : Env) (w : World) : List Action :=
  (t env w).2.log.drop w.log.length

/-- The task `t`, run from a world whose module-level configuration is the
initial `buildConfig`, issues the actions `steps` in order up to the first
rejection, and does nothing else. -/
def RunsAs (t : Async Unit) (steps : List Action) : Prop :=
  ∀ env w, w.buildConfig = buildConfig → t env w = runSeq steps env w

/-- The paths an action issued from the log `log` changes when it is
fulfilled: the path a removal deletes, the `outfile` of a writing bundler call
and the paths of the files it emits beside it. -/
def touched (env : Env) (log : List Action) : Action → List String
  | Action.remove path => [path]
  | Action.build cfg =>
    match cfg.write, cfg.outfile with
    | true, some path => path :: (env.siblings log cfg).map Prod.fst
    | _, _ => []
  | _ => []

/-- Whether an action is a removal (`fse.remove`). -/
def isRemove : Action → Bool
  | Action.remove _ => true
  | _ => false

/-- The path `p` holds, in `w`, a file written at position `start` of the log
or later. -/
def Fresh (start : Nat) (w : World) (p : String) : Prop :=
  ∃ f, w.fs p = some f ∧ start ≤ f.mtime

/-! ## Concrete inputs -/

/-- An environment in which no action is rejected, every bundler call writes
the single byte `1` to its outfile and nothing else, and the clock stands at
`0`. -/
def quietEnv : Env := ⟨fun _ _ => none, fun _ _ => [1], fun _ _ => [], fun _ => 0⟩

/-- An environment for a source tree whose `src/index.js` imports a
stylesheet: no action is rejected, and a bundler call that writes
`dist/lib.min.js` or `dist/index.cjs` also emits the bundled stylesheet next
to it, as `dist/lib.min.css` or `dist/index.css`. -/
def siblingEnv : Env :=
  ⟨fun _ _ => none, fun _ _ => [1],
   fun _ cfg =>
    if cfg.outfile = some "dist/lib.min.js" then [("dist/lib.min.css", [2])]
    else if cfg.outfile = some "dist/index.cjs" then [("dist/index.css", [2])]
    else [],
   fun _ => 0⟩

/-- The world of a fresh checkout: the initial configuration, an empty output
tree and an empty log. -/
def emptyWorld : World := ⟨buildConfig, fun _ => none, []⟩

/-- The empty flag set `{}`. -/
def noFlags : Options := ⟨none, none, none⟩

/-- The flag set `{ iife: true, node: true }`. -/
def bothFlags : Options := ⟨some true, some true, none⟩

/-- An environment in which every bundler call is rejected with the error
`build failed` and every other action is fulfilled. -/
def brokenEnv : Env :=
  ⟨fun _ a => match a with
    | Action.build _ => some ⟨"build failed"⟩
    | _ => none,
   fun _ _ => [1], fun _ _ => [], fun _ => 0⟩

/-! ## Predicates and sequences of the statements -/

/-- Whether a configuration writes one of the two JavaScript bundles. -/
def isJsBundle (cfg : Config) : Prop :=
  cfg.outfile = some "dist/lib.min.js" ∨ cfg.outfile = some "dist/index.cjs"

/-- Whether an action is a message to the operator (`shell.echo`). -/
def isEcho : Action → Bool
  | Action.echo _ _ => true
  | _ => false

/-- The steps of the `change` handler run in `env` from `w`: a regeneration
with `{ iife: true }`, then the timing message, whose text is fixed by the two
readings of the clock. -/
def changeSteps (env : Env) (w : World) : List Action :=
  regenerateSteps iifeOnly ++ [Action.echo "green" ("regenerate lib takes " ++
    toString (env.now (regenerate iifeOnly env w).2.log - env.now w.log) ++ " ms")]

/-- The actions of a regeneration with `{ iife: true }`, written out. -/
def iifeRegeneration : List Action :=
  [Action.remove "dist/lib.min.js", Action.remove "dist/lib.min.css",
    Action.build iifeConfig, Action.build (cssConfig none)]

/-- The three build outputs. -/
def buildOutputs : List String := ["dist/lib.min.js", "dist/index.cjs", "dist/lib.min.css"]

/-- No path of `paths` holds, in `w`, a file written before position `start`
of the log: with `start` the length of the log when a cycle began, none of
them holds bytes written by an earlier run. -/
def NoStale (start : Nat) (paths : List String) (w : World) : Prop :=
  ∀ p ∈ paths, ∀ f, w.fs p = some f → start ≤ f.mtime

/-- The world a run of `buildNode` leaves behind, from a fresh checkout and
with nothing rejected: `dist/index.cjs` and `dist/lib.min.css` are there. -/
def staleWorld : World := (buildNode quietEnv emptyWorld).2

/-! ## Lemmas on runs -/

theorem bind_eq {α β : Type} (t : Async α) (f : α → Async β) :
    (t >>= f) = Async.bind t f := rfl

theorem path_js : path_join "dist" "lib.min.js" = "dist/lib.min.js" := by decide

theorem path_cjs : path_join "dist" "index.cjs" = "dist/index.cjs" := by decide

theorem path_css : path_join "dist" "lib.min.css" = "dist/lib.min.css" := by decide

theorem perform_ok {env : Env} {w : World} {a : Action}
    (h : env.fails w.log a = none) :
    perform a env w = (Except.ok (), w.fulfilled env a) := by
  unfold perform; rw [h]

theorem perform_error {env : Env} {w : World} {a : Action} {e : Rejection}
    (h : env.fails w.log a = some e) :
    perform a env w = (Except.error e, w.rejected a) := by
  unfold perform; rw [h]

theorem perform_config (a : Action) (env : Env) (w : World) :
    (perform a env w).2.buildConfig = w.buildConfig := by
  unfold perform; split <;> rfl

theorem runSeq_cons_ok {env : Env} {w : World} {a : Action} (as : List Action)
    (h : env.fails w.log a = none) :
    runSeq (a :: as) env w = runSeq as env (w.fulfilled env a) := by
  simp only [runSeq, Async.bind, perform_ok h]

theorem runSeq_cons_error {env : Env} {w : World} {a : Action} {e : Rejection}
    (as : List Action) (h : env.fails w.log a = some e) :
    runSeq (a :: as) env w = (Except.error e, w.rejected a) := by
  simp only [runSeq, Async.bind, perform_error h]

theorem runSeq_one (a : Action) (env : Env) (w : World) :
    runSeq [a] env w = perform a env w := by
  cases h : env.fails w.log a with
  | none => rw [runSeq_cons_ok _ h, perform_ok h]; rfl
  | some e => rw [runSeq_cons_error _ h, perform_error h]

theorem runSeq_config (steps : List Action) (env : Env) (w : World) :
    (runSeq steps env w).2.buildConfig = w.buildConfig := by
  induction steps generalizing w with
  | nil => rfl
  | cons a as ih =>
    cases h : env.fails w.log a with
    | none => rw [runSeq_cons_ok _ h, ih]; rfl
    | some e => rw [runSeq_cons_error _ h]; rfl

theorem runSeq_append (xs ys : List Action) (env : Env) (w : World) :
    runSeq (xs ++ ys) env w = Async.bind (runSeq xs) (fun _ => runSeq ys) env w := by
  induction xs generalizing w with
  | nil => rfl
  | cons a as ih =>
    cases h : env.fails w.log a with
    | none =>
      rw [List.cons_append, runSeq_cons_ok _ h, ih]
      simp only [Async.bind, runSeq_cons_ok _ h]
    | some e =>
      rw [List.cons_append, runSeq_cons_error _ h]
      simp only [Async.bind, runSeq_cons_error _ h]

theorem runSeq_log (steps : List Action) (env : Env) (w : World) :
    (runSeq steps env w).2.log = w.log ++ issuedOf env w.log steps := by
  induction steps generalizing w with
  | nil => simp [runSeq, Async.pure, issuedOf]
  | cons a as ih =>
    cases h : env.fails w.log a with
    | none =>
      rw [runSeq_cons_ok _ h, ih]
      simp [issuedOf, h, World.fulfilled]
    | some e =>
      rw [runSeq_cons_error _ h]
      simp [issuedOf, h, World.rejected]

theorem issuedOf_isPrefix (env : Env) (log steps : List Action) :
    issuedOf env log steps <+: steps := by
  induction steps generalizing log with
  | nil => exact ⟨[], rfl⟩
  | cons a as ih =>
    unfold issuedOf
    cases env.fails log a with
    | none =>
      obtain ⟨t, ht⟩ := ih (log ++ [a])
      exact ⟨t, by simp [ht]⟩
    | some e => exact ⟨as, rfl⟩

theorem issuedOf_of_allFulfilled {env : Env} {log steps : List Action}
    (h : allFulfilled env log steps = true) : issuedOf env log steps = steps := by
  induction steps generalizing log with
  | nil => rfl
  | cons a as ih =>
    simp only [allFulfilled, Bool.and_eq_true, Option.isNone_iff_eq_none] at h
    simp only [issuedOf, h.1, ih h.2]

theorem runSeq_of_allFulfilled {env : Env} {w : World} {steps : List Action}
    (h : allFulfilled env w.log steps = true) :
    runSeq steps env w = (Except.ok (), applyAll env steps w) := by
  induction steps generalizing w with
  | nil => rfl
  | cons a as ih =>
    simp only [allFulfilled, Bool.and_eq_true, Option.isNone_iff_eq_none] at h
    rw [runSeq_cons_ok _ h.1, applyAll]
    exact ih h.2

theorem applyAll_log (env : Env) (steps : List Action) (w : World) :
    (applyAll env steps w).log = w.log ++ steps := by
  induction steps generalizing w with
  | nil => simp [applyAll]
  | cons a as ih => simp [applyAll, ih, World.fulfilled]

theorem runSeq_of_rejection {env : Env} {w : World} {pre post : List Action}
    {a : Action} {e : Rejection} (hpre : allFulfilled env w.log pre = true)
    (hfail : env.fails (w.log ++ pre) a = some e) :
    runSeq (pre ++ a :: post) env w
      = (Except.error e, (applyAll env pre w).rejected a) := by
  induction pre generalizing w with
  | nil =>
    simp only [List.append_nil] at hfail
    rw [List.nil_append, runSeq_cons_error _ hfail]; rfl
  | cons b bs ih =>
    simp only [allFulfilled, Bool.and_eq_true, Option.isNone_iff_eq_none] at hpre
    rw [List.cons_append, runSeq_cons_ok _ hpre.1, applyAll]
    apply ih hpre.2
    simpa [World.fulfilled] using hfail

theorem issued_of_eq {t : Async Unit} {steps : List Action} {env : Env} {w : World}
    (h : t env w = runSeq steps env w) :
    issued t env w = issuedOf env w.log steps := by
  unfold issued
  rw [h, runSeq_log]
  simp

theorem RunsAs.bind {t u : Async Unit} {s1 s2 : List Action}
    (h1 : RunsAs t s1) (h2 : RunsAs u s2) : RunsAs (t >>= fun _ => u) (s1 ++ s2) := by
  intro env w hc
  rw [runSeq_append, bind_eq]
  simp only [Async.bind]
  rw [h1 env w hc]
  have hk := runSeq_config s1 env w
  rcases hp : runSeq s1 env w with ⟨r, w1⟩
  rw [hp] at hk
  cases r with
  | error e => rfl
  | ok x => exact h2 env w1 (hk.trans hc)

theorem RunsAs.perform (a : Action) : RunsAs (perform a) [a] := by
  intro env w _; rw [runSeq_one]

theorem buildCSS_runs (o : Options) :
    RunsAs (buildCSS o) [Action.build (cssConfig o.minify)] := by
  intro env w hc
  rw [runSeq_one]
  show Gulpfile.perform _ env w = _
  rw [hc, path_css]
  rfl

theorem run_two (a : Action) (b : Config → Action) (env : Env) (w : World) :
    Async.bind (perform a)
        (fun _ => Async.bind getBuildConfig (fun base => perform (b base))) env w
      = runSeq [a, b w.buildConfig] env w := by
  cases h : env.fails w.log a with
  | none =>
    rw [runSeq_cons_ok _ h, runSeq_one]
    simp only [Async.bind, perform_ok h]
    rfl
  | some e =>
    rw [runSeq_cons_error _ h]
    simp only [Async.bind, perform_error h]

theorem buildModules_runs (o : Options) : RunsAs (buildModules o) (modulesSteps o) := by
  intro env w hc
  unfold buildModules modulesSteps
  rw [path_js, path_cjs]
  cases truthy o.iife <;> cases truthy o.node
  · rfl
  · refine Eq.trans ?_ (runSeq_one _ env w).symm
    show Gulpfile.perform _ env w = _
    rw [hc]; rfl
  · show runSeq [_] env w = _
    rw [hc]; rfl
  · refine Eq.trans (run_two _ (fun c => Action.build { c with
      format := some "cjs"
      platform := some "node"
      define := [("TransformStream", "null")]
      outfile := some "dist/index.cjs" }) env w) ?_
    rw [hc]; rfl

theorem regenerate_runs (o : Options) : RunsAs (regenerate o) (regenerateSteps o) := by
  have h : regenerateSteps o = [Action.remove "dist/lib.min.js"] ++
      ([Action.remove "dist/lib.min.css"] ++
        (modulesSteps o ++ [Action.build (cssConfig o.minify)])) := by
    simp [regenerateSteps]
  rw [h]
  unfold regenerate
  exact RunsAs.bind (RunsAs.perform _) (RunsAs.bind (RunsAs.perform _)
    (RunsAs.bind (buildModules_runs o) (buildCSS_runs o)))

theorem RunsAs.nil : RunsAs (Async.pure ()) [] := by
  intro env w _; rfl

theorem buildIIFE_runs :
    RunsAs buildIIFE [Action.build iifeConfig, Action.build (cssConfig (some true))] :=
  RunsAs.bind (buildModules_runs iifeOnly)
    (RunsAs.bind (buildCSS_runs minifyOnly) RunsAs.nil)

theorem buildNode_runs :
    RunsAs buildNode [Action.build nodeConfig, Action.build (cssConfig (some true))] :=
  RunsAs.bind (buildModules_runs nodeOnly)
    (RunsAs.bind (buildCSS_runs minifyOnly) RunsAs.nil)

theorem build_runs :
    RunsAs build [Action.build iifeConfig, Action.build nodeConfig,
      Action.build (cssConfig (some true))] :=
  RunsAs.bind (buildModules_runs iifeOnly)
    (RunsAs.bind (buildModules_runs nodeOnly)
      (RunsAs.bind (buildCSS_runs minifyOnly) RunsAs.nil))

theorem issued_of_runs {t : Async Unit} {steps : List Action} (h : RunsAs t steps)
    (env : Env) (w : World) (hc : w.buildConfig = buildConfig) :
    issued t env w = issuedOf env w.log steps :=
  issued_of_eq (h env w hc)

theorem mem_of_mem_issued {t : Async Unit} {steps : List Action} (h : RunsAs t steps)
    {env : Env} {w : World} (hc : w.buildConfig = buildConfig) {a : Action}
    (ha : a ∈ issued t env w) : a ∈ steps := by
  rw [issued_of_runs h env w hc] at ha
  obtain ⟨r, hr⟩ := issuedOf_isPrefix env w.log steps
  rw [← hr]
  exact List.mem_append_left r ha

theorem writeAll_other (fs : FS) (m : Nat) (l : List (String × List Nat)) (p : String)
    (h : p ∉ l.map Prod.fst) : fs.writeAll m l p = fs p := by
  induction l generalizing fs with
  | nil => rfl
  | cons x xs ih =>
    obtain ⟨q, bytes⟩ := x
    simp only [List.map_cons, List.mem_cons, not_or] at h
    rw [FS.writeAll, ih _ h.2]
    simp [FS.write, h.1]

theorem writeAll_fresh (fs : FS) (m start : Nat) (l : List (String × List Nat))
    (p : String) (hm : start ≤ m) (h : ∃ f, fs p = some f ∧ start ≤ f.mtime) :
    ∃ f, fs.writeAll m l p = some f ∧ start ≤ f.mtime := by
  induction l generalizing fs with
  | nil => exact h
  | cons x xs ih =>
    obtain ⟨q, bytes⟩ := x
    rw [FS.writeAll]
    apply ih
    by_cases hq : p = q
    · exact ⟨⟨bytes, m⟩, by simp [FS.write, hq], hm⟩
    · simpa [FS.write, hq] using h

theorem writeAll_noStale (fs : FS) (m start : Nat) (l : List (String × List Nat))
    (p : String) (hm : start ≤ m) (h : ∀ f, fs p = some f → start ≤ f.mtime) :
    ∀ f, fs.writeAll m l p = some f → start ≤ f.mtime := by
  induction l generalizing fs with
  | nil => exact h
  | cons x xs ih =>
    obtain ⟨q, bytes⟩ := x
    rw [FS.writeAll]
    apply ih
    intro f hf
    by_cases hq : p = q
    · simp only [FS.write, hq, if_true, Option.some.injEq] at hf
      rw [← hf]; exact hm
    · simp only [FS.write, hq, if_false] at hf
      exact h f hf

theorem effect_other (env : Env) (w : World) (a : Action) (p : String)
    (h : p ∉ touched env w.log a) : effect env w a p = w.fs p := by
  cases a with
  | remove path =>
    have hp : p ≠ path := by simpa [touched] using h
    simp [effect, FS.erase, hp]
  | build cfg =>
    simp only [touched] at h
    simp only [effect]
    cases hw : cfg.write <;> cases ho : cfg.outfile <;> simp only [hw, ho] at h ⊢
    next path =>
      simp only [List.mem_cons, not_or] at h
      simp only [FS.write, h.1, if_false]
      exact writeAll_other _ _ _ _ h.2
  | startServer => rfl
  | echo c t => rfl
  | watch g o => rfl

theorem applyAll_other (env : Env) (steps : List Action) (w : World) (p : String)
    (h : ∀ log, ∀ a ∈ steps, p ∉ touched env log a) :
    (applyAll env steps w).fs p = w.fs p := by
  induction steps generalizing w with
  | nil => rfl
  | cons a as ih =>
    rw [applyAll, ih _ (fun log b hb => h log b (List.mem_cons_of_mem a hb))]
    exact effect_other env w a p (h w.log a (List.mem_cons_self a as))

theorem fulfilled_fresh (env : Env) (w : World) (a : Action) (p : String) (start : Nat)
    (ha : isRemove a = false) (hlen : start ≤ w.log.length) (h : Fresh start w p) :
    Fresh start (w.fulfilled env a) p := by
  cases a with
  | remove path => cases ha
  | build cfg =>
    show ∃ f, effect env w (Action.build cfg) p = some f ∧ start ≤ f.mtime
    simp only [effect]
    cases hw : cfg.write <;> cases ho : cfg.outfile <;> simp only []
    · exact h
    · exact h
    · exact h
    · next path =>
      by_cases hq : p = path
      · exact ⟨⟨env.output w.log cfg, w.log.length⟩, by simp [FS.write, hq], hlen⟩
      · simp only [FS.write, hq, if_false]
        exact writeAll_fresh _ _ _ _ _ hlen h
  | startServer => exact h
  | echo c t => exact h
  | watch g o => exact h

theorem fulfilled_outfile_fresh (env : Env) (w : World) (cfg : Config) (p : String)
    (start : Nat) (hw : cfg.write = true) (ho : cfg.outfile = some p)
    (hlen : start ≤ w.log.length) :
    Fresh start (w.fulfilled env (Action.build cfg)) p := by
  show ∃ f, effect env w (Action.build cfg) p = some f ∧ start ≤ f.mtime
  simp only [effect, hw, ho]
  exact ⟨⟨env.output w.log cfg, w.log.length⟩, by simp [FS.write], hlen⟩

theorem applyAll_fresh (env : Env) (steps : List Action) (w : World) (p : String)
    (start : Nat) (hs : ∀ a ∈ steps, isRemove a = false) (hlen : start ≤ w.log.length)
    (h : Fresh start w p) : Fresh start (applyAll env steps w) p := by
  induction steps generalizing w with
  | nil => exact h
  | cons a as ih =>
    rw [applyAll]
    apply ih _ (fun b hb => hs b (List.mem_cons_of_mem a hb))
    · simp only [World.fulfilled, List.length_append]; omega
    · exact fulfilled_fresh env w a p start (hs a (List.mem_cons_self a as)) hlen h

theorem fulfilled_present (env : Env) (w : World) (a : Action) (p : String)
    (ha : isRemove a = false) (h : (w.fs p).isSome = true) :
    ((w.fulfilled env a).fs p).isSome = true := by
  obtain ⟨f, hf⟩ := Option.isSome_iff_exists.mp h
  have hfresh : Fresh 0 w p := ⟨f, hf, Nat.zero_le _⟩
  obtain ⟨g, hg, _⟩ := fulfilled_fresh env w a p 0 ha (Nat.zero_le _) hfresh
  exact Option.isSome_iff_exists.mpr ⟨g, hg⟩

theorem applyAll_present (env : Env) (steps : List Action) (w : World) (p : String)
    (hs : ∀ a ∈ steps, isRemove a = false) (h : (w.fs p).isSome = true) :
    ((applyAll env steps w).fs p).isSome = true := by
  induction steps generalizing w with
  | nil => exact h
  | cons a as ih =>
    rw [applyAll]
    exact ih _ (fun b hb => hs b (List.mem_cons_of_mem a hb))
      (fulfilled_present env w a p (hs a (List.mem_cons_self a as)) h)

theorem applyAll_append (env : Env) (xs ys : List Action) (w : World) :
    applyAll env (xs ++ ys) w = applyAll env ys (applyAll env xs w) := by
  induction xs generalizing w with
  | nil => rfl
  | cons a as ih => exact ih (w.fulfilled env a)

theorem mem_of_split {xs pre post : List Action} {c a : Action}
    (h : xs ++ [c] = pre ++ a :: post) : ∀ b ∈ pre, b ∈ xs := by
  induction pre generalizing xs with
  | nil => intro b hb; cases hb
  | cons b bs ih =>
    cases xs with
    | nil =>
      have hl := congrArg List.length h
      simp at hl
    | cons x xs =>
      simp only [List.cons_append, List.cons.injEq] at h
      intro d hd
      rcases List.mem_cons.mp hd with hd | hd
      · rw [hd, ← h.1]; exact List.mem_cons_self x xs
      · exact List.mem_cons_of_mem x (ih h.2 d hd)

theorem touched_of_mem_modulesSteps {env : Env} {o : Options} {a : Action}
    (hs : ∀ log cfg, env.siblings log cfg = []) (log : List Action)
    (h : a ∈ modulesSteps o) :
    touched env log a = ["dist/lib.min.js"] ∨ touched env log a = ["dist/index.cjs"] := by
  unfold modulesSteps at h
  rcases List.mem_append.mp h with h | h
  · split at h
    · rw [List.mem_singleton.mp h]
      exact Or.inl (by simp [touched, iifeConfig, hs])
    · cases h
  · split at h
    · rw [List.mem_singleton.mp h]
      exact Or.inr (by simp [touched, nodeConfig, hs])
    · cases h

theorem allFulfilled_of_forall {env : Env} (log steps : List Action)
    (h : ∀ a ∈ steps, ∀ l, env.fails l a = none) : allFulfilled env log steps = true := by
  induction steps generalizing log with
  | nil => rfl
  | cons a as ih =>
    simp only [allFulfilled, Bool.and_eq_true, Option.isNone_iff_eq_none]
    exact ⟨h a (List.mem_cons_self a as) log,
      ih _ (fun b hb => h b (List.mem_cons_of_mem a hb))⟩

theorem issued_perform (a : Action) (env : Env) (w : World) :
    issued (perform a) env w = [a] := by
  unfold issued perform
  cases env.fails w.log a <;> simp [World.rejected, World.fulfilled]

/-! ## The order of a regeneration -/

/-- C1: for every flag set, the actions `regenerate` issues are an initial
segment of the fixed sequence "remove `dist/lib.min.js`, remove
`dist/lib.min.css`, the calls of `buildModules` for the flags, the call of
`buildCSS` for the flags"; whenever a bundler call is issued, both removals
were issued before it; both removals are issued, for every flag set and so for
the empty one, as soon as the first is fulfilled; and when no step is
rejected the task is fulfilled and the sequence is issued in full. -/
theorem regenerate_order (env : Env) (w : World) (option : Options)
    (hc : w.buildConfig = buildConfig) :
    issued (regenerate option) env w <+: regenerateSteps option
    ∧ (∀ cfg, Action.build cfg ∈ issued (regenerate option) env w →
        [Action.remove "dist/lib.min.js", Action.remove "dist/lib.min.css"]
          <+: issued (regenerate option) env w)
    ∧ (env.fails w.log (Action.remove "dist/lib.min.js") = none →
        [Action.remove "dist/lib.min.js", Action.remove "dist/lib.min.css"]
          <+: issued (regenerate option) env w)
    ∧ (allFulfilled env w.log (regenerateSteps option) = true →
        (regenerate option env w).1 = Except.ok () ∧
        issued (regenerate option) env w = regenerateSteps option) := by
  have hi := issued_of_runs (regenerate_runs option) env w hc
  have hs : regenerateSteps option = Action.remove "dist/lib.min.js" ::
      Action.remove "dist/lib.min.css" ::
        (modulesSteps option ++ [Action.build (cssConfig option.minify)]) := rfl
  refine ⟨hi ▸ issuedOf_isPrefix env w.log _, ?_, ?_, ?_⟩
  · intro cfg hmem
    rw [hi, hs] at hmem ⊢
    unfold issuedOf at hmem ⊢
    cases h1 : env.fails w.log (Action.remove "dist/lib.min.js") with
    | some e => rw [h1] at hmem; simp at hmem
    | none =>
      simp only [h1]
      unfold issuedOf
      cases env.fails (w.log ++ [Action.remove "dist/lib.min.js"])
        (Action.remove "dist/lib.min.css") with
      | some e => exact ⟨[], rfl⟩
      | none => exact ⟨_, rfl⟩
  · intro h1
    rw [hi, hs]
    unfold issuedOf
    simp only [h1]
    unfold issuedOf
    cases env.fails (w.log ++ [Action.remove "dist/lib.min.js"])
      (Action.remove "dist/lib.min.css") with
    | some e => exact ⟨[], rfl⟩
    | none => exact ⟨_, rfl⟩
  · intro hall
    rw [hi, issuedOf_of_allFulfilled hall, regenerate_runs option env w hc,
      runSeq_of_allFulfilled hall]
    exact ⟨rfl, rfl⟩

/-- Witness of C1 on the empty flag set, in an environment that rejects
nothing: the two removals and then the stylesheet call. -/
theorem regenerate_order_witness :
    emptyWorld.buildConfig = buildConfig ∧
    issued (regenerate noFlags) quietEnv emptyWorld
      = [Action.remove "dist/lib.min.js", Action.remove "dist/lib.min.css",
          Action.build (cssConfig none)] :=
  ⟨rfl, ((regenerate_order quietEnv emptyWorld noFlags rfl).2.2.2 (by decide)).2⟩

/-! ## The calls of the module build -/

/-- C2: for every flag set the bundler calls of `buildModules` are an initial
segment of: the call with format `iife`, global name `lib` and outfile
`dist/lib.min.js` if and only if `iife` is set, followed by the call with
format `cjs`, platform `node`, `TransformStream` defined as `null` and outfile
`dist/index.cjs` if and only if `node` is set; they are exactly that sequence
as soon as the first call is not rejected; and with neither flag set
`buildModules` is fulfilled without any call, leaving the world as it was. -/
theorem buildModules_calls (env : Env) (w : World) (options : Options)
    (hc : w.buildConfig = buildConfig) :
    issued (buildModules options) env w <+:
        (if truthy options.iife then [Action.build iifeConfig] else []) ++
        (if truthy options.node then [Action.build nodeConfig] else [])
    ∧ (env.fails w.log (Action.build iifeConfig) = none →
        issued (buildModules options) env w =
          (if truthy options.iife then [Action.build iifeConfig] else []) ++
          (if truthy options.node then [Action.build nodeConfig] else []))
    ∧ (truthy options.iife = false → truthy options.node = false →
        buildModules options env w = (Except.ok (), w))
    ∧ (iifeConfig.format = some "iife" ∧ iifeConfig.globalName = some "lib" ∧
        iifeConfig.outfile = some "dist/lib.min.js")
    ∧ (nodeConfig.format = some "cjs" ∧ nodeConfig.platform = some "node" ∧
        nodeConfig.define = [("TransformStream", "null")] ∧
        nodeConfig.outfile = some "dist/index.cjs") := by
  have hi := issued_of_runs (buildModules_runs options) env w hc
  have hr := buildModules_runs options env w hc
  refine ⟨hi ▸ issuedOf_isPrefix env w.log _, ?_, ?_, ⟨rfl, rfl, rfl⟩, ⟨rfl, rfl, rfl, rfl⟩⟩
  · intro h1
    rw [hi]
    unfold modulesSteps
    cases truthy options.iife <;> cases truthy options.node <;>
      simp only [if_true, if_false, Bool.false_eq_true, List.nil_append, List.append_nil,
        List.singleton_append]
    · rfl
    · unfold issuedOf
      cases env.fails w.log (Action.build nodeConfig) <;> rfl
    · simp only [issuedOf, h1]
    · unfold issuedOf
      simp only [h1]
      unfold issuedOf
      cases env.fails (w.log ++ [Action.build iifeConfig]) (Action.build nodeConfig) <;> rfl
  · intro h1 h2
    rw [hr]
    unfold modulesSteps
    rw [h1, h2]
    rfl

/-- Witness of C2 with both flags set, in an environment that rejects nothing:
the browser call, then the server call. -/
theorem buildModules_calls_witness :
    emptyWorld.buildConfig = buildConfig ∧
    issued (buildModules bothFlags) quietEnv emptyWorld
      = [Action.build iifeConfig, Action.build nodeConfig] :=
  ⟨rfl, (buildModules_calls quietEnv emptyWorld bothFlags rfl).2.1 rfl⟩

/-! ## Rejection inside a regeneration -/

/-- C3: for every flag set, if the steps of `regenerate` before some step `a`
are all fulfilled and `a` (a removal, a module call or the stylesheet call) is
rejected with `e`, then `regenerate` is rejected with that same `e`; the
actions it issued are the steps before `a` and `a` itself, each once: no later
step is started and none is retried; and the output tree is what the fulfilled
steps left, nothing being put back: when the step right after the two removals
is rejected, `dist/lib.min.js` and `dist/lib.min.css` are both absent, and
when bundler calls write only their outfile, `dist/lib.min.css` is absent
after any rejection that follows the two removals. -/
theorem regenerate_rejection (env : Env) (w : World) (option : Options)
    (hc : w.buildConfig = buildConfig) (pre post : List Action) (a : Action)
    (e : Rejection) (hsteps : regenerateSteps option = pre ++ a :: post)
    (hpre : allFulfilled env w.log pre = true)
    (hfail : env.fails (w.log ++ pre) a = some e) :
    (regenerate option env w).1 = Except.error e
    ∧ issued (regenerate option) env w = pre ++ [a]
    ∧ (regenerate option env w).2.fs = (applyAll env pre w).fs
    ∧ (pre.length = 2 →
        (regenerate option env w).2.fs "dist/lib.min.js" = none ∧
        (regenerate option env w).2.fs "dist/lib.min.css" = none)
    ∧ ((∀ log cfg, env.siblings log cfg = []) → 2 ≤ pre.length →
        (regenerate option env w).2.fs "dist/lib.min.css" = none) := by
  have hr : regenerate option env w
      = (Except.error e, (applyAll env pre w).rejected a) := by
    rw [regenerate_runs option env w hc, hsteps]
    exact runSeq_of_rejection hpre hfail
  have hs : regenerateSteps option = Action.remove "dist/lib.min.js" ::
      Action.remove "dist/lib.min.css" ::
        (modulesSteps option ++ [Action.build (cssConfig option.minify)]) := rfl
  rw [hs] at hsteps
  refine ⟨by rw [hr], ?_, by rw [hr]; rfl, ?_, ?_⟩
  · unfold issued
    rw [hr]
    simp [World.rejected, applyAll_log]
  · intro hlen
    rw [hr]
    rcases pre with _ | ⟨p1, _ | ⟨p2, _ | ⟨p3, rest⟩⟩⟩
    · simp at hlen
    · simp at hlen
    · simp only [List.cons_append, List.cons.injEq] at hsteps
      obtain ⟨h1, h2, -⟩ := hsteps
      subst h1 h2
      constructor <;>
        simp [World.rejected, applyAll, World.fulfilled, effect, FS.erase]
    · simp at hlen
  · intro hsib hlen
    rw [hr]
    rcases pre with _ | ⟨p1, _ | ⟨p2, rest⟩⟩
    · simp at hlen
    · simp at hlen
    · simp only [List.cons_append, List.cons.injEq] at hsteps
      obtain ⟨h1, h2, h3⟩ := hsteps
      subst h1 h2
      have hrest : ∀ log, ∀ b ∈ rest, "dist/lib.min.css" ∉ touched env log b := by
        intro log b hb
        rcases touched_of_mem_modulesSteps hsib log (mem_of_split h3 b hb) with ht | ht <;>
          rw [ht] <;> decide
      show (applyAll env (Action.remove "dist/lib.min.js" ::
        Action.remove "dist/lib.min.css" :: rest) w).fs "dist/lib.min.css" = none
      rw [applyAll, applyAll, applyAll_other env rest _ _ hrest]
      simp [World.fulfilled, effect, FS.erase]

/-- Witness of C3: with `{ iife: true }` and a bundler that rejects, the two
removals are fulfilled, the browser call is rejected, and the stylesheet call
is never issued. -/
theorem regenerate_rejection_witness :
    (regenerate iifeOnly brokenEnv emptyWorld).1 = Except.error ⟨"build failed"⟩ ∧
    issued (regenerate iifeOnly) brokenEnv emptyWorld
      = [Action.remove "dist/lib.min.js", Action.remove "dist/lib.min.css",
          Action.build iifeConfig] ∧
    (regenerate iifeOnly brokenEnv emptyWorld).2.fs "dist/lib.min.css" = none :=
  have h := regenerate_rejection brokenEnv emptyWorld iifeOnly rfl
    [Action.remove "dist/lib.min.js", Action.remove "dist/lib.min.css"]
    [Action.build (cssConfig none)] (Action.build iifeConfig) ⟨"build failed"⟩
    (by decide) (by decide) (by decide)
  ⟨h.1, h.2.1, (h.2.2.2.1 rfl).2⟩

/-! ## The files of the one-shot tasks -/

theorem builds_fulfilled {env : Env}
    (hok : ∀ log cfg, env.fails log (Action.build cfg) = none) (log : List Action)
    (cfgs : List Config) : allFulfilled env log (cfgs.map Action.build) = true :=
  allFulfilled_of_forall _ _ (by
    intro a ha l
    obtain ⟨cfg, -, rfl⟩ := List.mem_map.mp ha
    exact hok l cfg)

theorem builds_not_remove (cfgs : List Config) :
    ∀ a ∈ cfgs.map Action.build, isRemove a = false := by
  intro a ha
  obtain ⟨cfg, -, rfl⟩ := List.mem_map.mp ha
  rfl

theorem fulfilled_log_length (env : Env) (w : World) (a : Action) :
    (w.fulfilled env a).log.length = w.log.length + 1 := by
  simp [World.fulfilled]

/-- C4 fails as stated: for a source tree whose entry imports a stylesheet,
with every bundler call fulfilled, `build` from an empty output tree also
writes `dist/index.css`, the stylesheet the bundler emits beside
`dist/index.cjs`. -/
theorem build_emits_sibling_stylesheet :
    (∀ log cfg, siblingEnv.fails log (Action.build cfg) = none)
    ∧ (build siblingEnv emptyWorld).1 = Except.ok ()
    ∧ emptyWorld.fs "dist/index.css" = none
    ∧ (build siblingEnv emptyWorld).2.fs "dist/index.css" = some ⟨[2], 1⟩ :=
  ⟨fun _ _ => rfl, rfl, rfl, by decide⟩

/-- C4 as amended: when every bundler call is fulfilled, the task `build` is
fulfilled and its actions are the browser call, the server call and the
minified stylesheet call and nothing else (no removal); afterwards
`dist/lib.min.js`, `dist/index.cjs` and `dist/lib.min.css` each hold a file
written by this run; no path that held a file has lost it; a path other than
the three is changed only if one of the three calls emits a file there beside
its outfile; and when the calls write only their outfile, each of the three
holds the output of its call and every other path holds what it held before,
whatever the output tree held at the start. -/
theorem build_outputs (env : Env) (w : World) (hc : w.buildConfig = buildConfig)
    (hok : ∀ log cfg, env.fails log (Action.build cfg) = none) :
    (build env w).1 = Except.ok ()
    ∧ issued build env w = [Action.build iifeConfig, Action.build nodeConfig,
        Action.build (cssConfig (some true))]
    ∧ Fresh w.log.length (build env w).2 "dist/lib.min.js"
    ∧ Fresh w.log.length (build env w).2 "dist/index.cjs"
    ∧ Fresh w.log.length (build env w).2 "dist/lib.min.css"
    ∧ (∀ p, (w.fs p).isSome = true → ((build env w).2.fs p).isSome = true)
    ∧ (∀ p, p ≠ "dist/lib.min.js" → p ≠ "dist/index.cjs" → p ≠ "dist/lib.min.css" →
        p ∉ (env.siblings w.log iifeConfig).map Prod.fst →
        p ∉ (env.siblings (w.log ++ [Action.build iifeConfig]) nodeConfig).map Prod.fst →
        p ∉ (env.siblings (w.log ++ [Action.build iifeConfig] ++ [Action.build nodeConfig])
              (cssConfig (some true))).map Prod.fst →
        (build env w).2.fs p = w.fs p)
    ∧ ((∀ log cfg, env.siblings log cfg = []) →
        (build env w).2.fs "dist/lib.min.js"
          = some ⟨env.output w.log iifeConfig, w.log.length⟩
        ∧ (build env w).2.fs "dist/index.cjs"
          = some ⟨env.output (w.log ++ [Action.build iifeConfig]) nodeConfig,
              w.log.length + 1⟩
        ∧ (build env w).2.fs "dist/lib.min.css"
          = some ⟨env.output (w.log ++ [Action.build iifeConfig, Action.build nodeConfig])
              (cssConfig (some true)), w.log.length + 2⟩
        ∧ (∀ p, p ≠ "dist/lib.min.js" → p ≠ "dist/index.cjs" →
            p ≠ "dist/lib.min.css" → (build env w).2.fs p = w.fs p)) := by
  have hall := builds_fulfilled hok w.log [iifeConfig, nodeConfig, cssConfig (some true)]
  have hr : build env w = (Except.ok (), applyAll env [Action.build iifeConfig,
      Action.build nodeConfig, Action.build (cssConfig (some true))] w) :=
    (build_runs env w hc).trans (runSeq_of_allFulfilled hall)
  have hi := (issued_of_runs build_runs env w hc).trans (issuedOf_of_allFulfilled hall)
  have hframe : ∀ p, p ≠ "dist/lib.min.js" → p ≠ "dist/index.cjs" →
      p ≠ "dist/lib.min.css" →
      p ∉ (env.siblings w.log iifeConfig).map Prod.fst →
      p ∉ (env.siblings (w.log ++ [Action.build iifeConfig]) nodeConfig).map Prod.fst →
      p ∉ (env.siblings (w.log ++ [Action.build iifeConfig] ++ [Action.build nodeConfig])
            (cssConfig (some true))).map Prod.fst →
      (build env w).2.fs p = w.fs p := by
    intro p h1 h2 h3 s1 s2 s3
    have t1 : p ∉ touched env w.log (Action.build iifeConfig) := by
      simp only [touched, iifeConfig, List.mem_cons, not_or]
      exact ⟨h1, s1⟩
    have t2 : p ∉ touched env (w.log ++ [Action.build iifeConfig])
        (Action.build nodeConfig) := by
      simp only [touched, nodeConfig, List.mem_cons, not_or]
      exact ⟨h2, s2⟩
    have t3 : p ∉ touched env (w.log ++ [Action.build iifeConfig] ++
        [Action.build nodeConfig]) (Action.build (cssConfig (some true))) := by
      simp only [touched, cssConfig, List.mem_cons, not_or]
      exact ⟨h3, s3⟩
    rw [hr]
    show effect env ((w.fulfilled env (Action.build iifeConfig)).fulfilled env
      (Action.build nodeConfig)) (Action.build (cssConfig (some true))) p = w.fs p
    rw [effect_other env _ _ p t3]
    show effect env (w.fulfilled env (Action.build iifeConfig))
      (Action.build nodeConfig) p = w.fs p
    rw [effect_other env _ _ p t2]
    exact effect_other env w _ p t1
  refine ⟨by rw [hr], hi, ?_, ?_, ?_, ?_, hframe, ?_⟩
  · rw [hr]
    exact applyAll_fresh env [Action.build nodeConfig, Action.build (cssConfig (some true))]
      (w.fulfilled env (Action.build iifeConfig)) _ _
      (builds_not_remove [nodeConfig, cssConfig (some true)])
      (by rw [fulfilled_log_length]; omega)
      (fulfilled_outfile_fresh env w iifeConfig _ _ rfl rfl (Nat.le_refl _))
  · rw [hr]
    exact applyAll_fresh env [Action.build (cssConfig (some true))]
      ((w.fulfilled env (Action.build iifeConfig)).fulfilled env (Action.build nodeConfig))
      _ _ (builds_not_remove [cssConfig (some true)])
      (by rw [fulfilled_log_length, fulfilled_log_length]; omega)
      (fulfilled_outfile_fresh env (w.fulfilled env (Action.build iifeConfig)) nodeConfig
        _ _ rfl rfl (by rw [fulfilled_log_length]; omega))
  · rw [hr]
    exact fulfilled_outfile_fresh env
      ((w.fulfilled env (Action.build iifeConfig)).fulfilled env (Action.build nodeConfig))
      (cssConfig (some true)) _ _ rfl rfl
      (by rw [fulfilled_log_length, fulfilled_log_length]; omega)
  · intro p hp
    rw [hr]
    exact applyAll_present env _ w p
      (builds_not_remove [iifeConfig, nodeConfig, cssConfig (some true)]) hp
  · intro hsib
    refine ⟨?_, ?_, ?_, ?_⟩
    · rw [hr]
      simp [applyAll, World.fulfilled, effect, FS.write, FS.writeAll, hsib, iifeConfig,
        nodeConfig, cssConfig]
    · rw [hr]
      simp [applyAll, World.fulfilled, effect, FS.write, FS.writeAll, hsib, iifeConfig,
        nodeConfig, cssConfig]
    · rw [hr]
      simp [applyAll, World.fulfilled, effect, FS.write, FS.writeAll, hsib, iifeConfig,
        nodeConfig, cssConfig]
    · intro p h1 h2 h3
      exact hframe p h1 h2 h3 (by simp [hsib]) (by simp [hsib]) (by simp [hsib])

/-- Witness of the amended C4 from an empty output tree, for the source tree
whose entry imports a stylesheet: `dist/index.cjs` is written by the run. -/
theorem build_outputs_witness :
    (emptyWorld.buildConfig = buildConfig ∧
      ∀ log cfg, siblingEnv.fails log (Action.build cfg) = none) ∧
    (build siblingEnv emptyWorld).1 = Except.ok () ∧
    Fresh emptyWorld.log.length (build siblingEnv emptyWorld).2 "dist/index.cjs" :=
  ⟨⟨rfl, fun _ _ => rfl⟩,
    (build_outputs siblingEnv emptyWorld rfl (fun _ _ => rfl)).1,
    (build_outputs siblingEnv emptyWorld rfl (fun _ _ => rfl)).2.2.2.1⟩

/-- C5 fails as stated: for a source tree whose entry imports a stylesheet,
with every bundler call fulfilled, `buildNode` from an empty output tree
writes `dist/index.css` besides `dist/index.cjs` and `dist/lib.min.css`. -/
theorem buildNode_emits_sibling_stylesheet :
    (∀ log cfg, siblingEnv.fails log (Action.build cfg) = none)
    ∧ (buildNode siblingEnv emptyWorld).1 = Except.ok ()
    ∧ emptyWorld.fs "dist/index.css" = none
    ∧ (buildNode siblingEnv emptyWorld).2.fs "dist/index.css" = some ⟨[2], 0⟩ :=
  ⟨fun _ _ => rfl, rfl, rfl, by decide⟩

theorem two_builds (env : Env) (w : World) (c : Config) (out : String)
    (hw : c.write = true) (ho : c.outfile = some out) :
    Fresh w.log.length (applyAll env [Action.build c,
        Action.build (cssConfig (some true))] w) out
    ∧ Fresh w.log.length (applyAll env [Action.build c,
        Action.build (cssConfig (some true))] w) "dist/lib.min.css"
    ∧ (∀ p, (w.fs p).isSome = true → ((applyAll env [Action.build c,
        Action.build (cssConfig (some true))] w).fs p).isSome = true)
    ∧ (∀ p, p ≠ out → p ≠ "dist/lib.min.css" →
        p ∉ (env.siblings w.log c).map Prod.fst →
        p ∉ (env.siblings (w.log ++ [Action.build c])
              (cssConfig (some true))).map Prod.fst →
        (applyAll env [Action.build c, Action.build (cssConfig (some true))] w).fs p
          = w.fs p) := by
  refine ⟨?_, ?_, ?_, ?_⟩
  · exact applyAll_fresh env [Action.build (cssConfig (some true))]
      (w.fulfilled env (Action.build c)) _ _
      (builds_not_remove [cssConfig (some true)])
      (by rw [fulfilled_log_length]; omega)
      (fulfilled_outfile_fresh env w c _ _ hw ho (Nat.le_refl _))
  · exact fulfilled_outfile_fresh env (w.fulfilled env (Action.build c))
      (cssConfig (some true)) _ _ rfl rfl (by rw [fulfilled_log_length]; omega)
  · intro p hp
    exact applyAll_present env _ w p (builds_not_remove [c, cssConfig (some true)]) hp
  · intro p h1 h2 s1 s2
    have t1 : p ∉ touched env w.log (Action.build c) := by
      simp only [touched, hw, ho, List.mem_cons, not_or]
      exact ⟨h1, s1⟩
    have t2 : p ∉ touched env (w.log ++ [Action.build c])
        (Action.build (cssConfig (some true))) := by
      simp only [touched, cssConfig, List.mem_cons, not_or]
      exact ⟨h2, s2⟩
    show effect env (w.fulfilled env (Action.build c))
      (Action.build (cssConfig (some true))) p = w.fs p
    rw [effect_other env _ _ p t2]
    exact effect_other env w _ p t1

/-- C5 as amended: when every bundler call is fulfilled, `buildIIFE` issues
exactly the browser call followed by the minified stylesheet call, and
`buildNode` exactly the server call followed by the minified stylesheet call;
each task leaves its two outfiles holding a file written by this run and
takes no file away; a path other than its two outfiles, so the JavaScript
bundle of the other task too, is changed only if one of its calls emits a file
there beside its outfile; and when the calls write only their outfile, the two
outfiles hold the outputs of the calls and every other path is as it was. -/
theorem buildIIFE_buildNode_outputs (env : Env) (w : World)
    (hc : w.buildConfig = buildConfig)
    (hok : ∀ log cfg, env.fails log (Action.build cfg) = none) :
    ((buildIIFE env w).1 = Except.ok ()
      ∧ issued buildIIFE env w
          = [Action.build iifeConfig, Action.build (cssConfig (some true))]
      ∧ Fresh w.log.length (buildIIFE env w).2 "dist/lib.min.js"
      ∧ Fresh w.log.length (buildIIFE env w).2 "dist/lib.min.css"
      ∧ (∀ p, (w.fs p).isSome = true → ((buildIIFE env w).2.fs p).isSome = true)
      ∧ (∀ p, p ≠ "dist/lib.min.js" → p ≠ "dist/lib.min.css" →
          p ∉ (env.siblings w.log iifeConfig).map Prod.fst →
          p ∉ (env.siblings (w.log ++ [Action.build iifeConfig])
                (cssConfig (some true))).map Prod.fst →
          (buildIIFE env w).2.fs p = w.fs p)
      ∧ ((∀ log cfg, env.siblings log cfg = []) →
          (buildIIFE env w).2.fs "dist/lib.min.js"
            = some ⟨env.output w.log iifeConfig, w.log.length⟩
          ∧ (buildIIFE env w).2.fs "dist/lib.min.css"
            = some ⟨env.output (w.log ++ [Action.build iifeConfig])
                (cssConfig (some true)), w.log.length + 1⟩
          ∧ (∀ p, p ≠ "dist/lib.min.js" → p ≠ "dist/lib.min.css" →
              (buildIIFE env w).2.fs p = w.fs p)
          ∧ (buildIIFE env w).2.fs "dist/index.cjs" = w.fs "dist/index.cjs"))
    ∧ ((buildNode env w).1 = Except.ok ()
      ∧ issued buildNode env w
          = [Action.build nodeConfig, Action.build (cssConfig (some true))]
      ∧ Fresh w.log.length (buildNode env w).2 "dist/index.cjs"
      ∧ Fresh w.log.length (buildNode env w).2 "dist/lib.min.css"
      ∧ (∀ p, (w.fs p).isSome = true → ((buildNode env w).2.fs p).isSome = true)
      ∧ (∀ p, p ≠ "dist/index.cjs" → p ≠ "dist/lib.min.css" →
          p ∉ (env.siblings w.log nodeConfig).map Prod.fst →
          p ∉ (env.siblings (w.log ++ [Action.build nodeConfig])
                (cssConfig (some true))).map Prod.fst →
          (buildNode env w).2.fs p = w.fs p)
      ∧ ((∀ log cfg, env.siblings log cfg = []) →
          (buildNode env w).2.fs "dist/index.cjs"
            = some ⟨env.output w.log nodeConfig, w.log.length⟩
          ∧ (buildNode env w).2.fs "dist/lib.min.css"
            = some ⟨env.output (w.log ++ [Action.build nodeConfig])
                (cssConfig (some true)), w.log.length + 1⟩
          ∧ (∀ p, p ≠ "dist/index.cjs" → p ≠ "dist/lib.min.css" →
              (buildNode env w).2.fs p = w.fs p)
          ∧ (buildNode env w).2.fs "dist/lib.min.js" = w.fs "dist/lib.min.js")) := by
  have hall1 := builds_fulfilled hok w.log [iifeConfig, cssConfig (some true)]
  have hall2 := builds_fulfilled hok w.log [nodeConfig, cssConfig (some true)]
  have hr1 : buildIIFE env w = (Except.ok (), applyAll env [Action.build iifeConfig,
      Action.build (cssConfig (some true))] w) :=
    (buildIIFE_runs env w hc).trans (runSeq_of_allFulfilled hall1)
  have hi1 := (issued_of_runs buildIIFE_runs env w hc).trans
    (issuedOf_of_allFulfilled hall1)
  have hr2 : buildNode env w = (Except.ok (), applyAll env [Action.build nodeConfig,
      Action.build (cssConfig (some true))] w) :=
    (buildNode_runs env w hc).trans (runSeq_of_allFulfilled hall2)
  have hi2 := (issued_of_runs buildNode_runs env w hc).trans
    (issuedOf_of_allFulfilled hall2)
  obtain ⟨a1, a2, a3, a4⟩ := two_builds env w iifeConfig "dist/lib.min.js" rfl rfl
  obtain ⟨b1, b2, b3, b4⟩ := two_builds env w nodeConfig "dist/index.cjs" rfl rfl
  have e1 : applyAll env [Action.build iifeConfig,
      Action.build (cssConfig (some true))] w = (buildIIFE env w).2 := by rw [hr1]
  have e2 : applyAll env [Action.build nodeConfig,
      Action.build (cssConfig (some true))] w = (buildNode env w).2 := by rw [hr2]
  rw [e1] at a1 a2 a3 a4
  rw [e2] at b1 b2 b3 b4
  refine ⟨⟨by rw [hr1], hi1, a1, a2, a3, a4, ?_⟩, ⟨by rw [hr2], hi2, b1, b2, b3, b4, ?_⟩⟩
  · intro hsib
    refine ⟨?_, ?_, ?_, ?_⟩
    · rw [hr1]
      simp [applyAll, World.fulfilled, effect, FS.write, FS.writeAll, hsib, iifeConfig,
        cssConfig]
    · rw [hr1]
      simp [applyAll, World.fulfilled, effect, FS.write, FS.writeAll, hsib, iifeConfig,
        cssConfig]
    · intro p h1 h2
      exact a4 p h1 h2 (by simp [hsib]) (by simp [hsib])
    · exact a4 _ (by decide) (by decide) (by simp [hsib]) (by simp [hsib])
  · intro hsib
    refine ⟨?_, ?_, ?_, ?_⟩
    · rw [hr2]
      simp [applyAll, World.fulfilled, effect, FS.write, FS.writeAll, hsib, nodeConfig,
        cssConfig]
    · rw [hr2]
      simp [applyAll, World.fulfilled, effect, FS.write, FS.writeAll, hsib, nodeConfig,
        cssConfig]
    · intro p h1 h2
      exact b4 p h1 h2 (by simp [hsib]) (by simp [hsib])
    · exact b4 _ (by decide) (by decide) (by simp [hsib]) (by simp [hsib])

/-- Witness of the amended C5 from an empty output tree in an environment
whose bundler writes only its outfile: after `buildIIFE` there is no
`dist/index.cjs`, after `buildNode` no `dist/lib.min.js`. -/
theorem buildIIFE_buildNode_outputs_witness :
    (emptyWorld.buildConfig = buildConfig ∧
      (∀ log cfg, quietEnv.fails log (Action.build cfg) = none) ∧
      ∀ log cfg, quietEnv.siblings log cfg = []) ∧
    (buildIIFE quietEnv emptyWorld).2.fs "dist/index.cjs" = none ∧
    (buildNode quietEnv emptyWorld).2.fs "dist/lib.min.js" = none :=
  ⟨⟨rfl, fun _ _ => rfl, fun _ _ => rfl⟩,
    ((buildIIFE_buildNode_outputs quietEnv emptyWorld rfl (fun _ _ => rfl)).1.2.2.2.2.2.2
      (fun _ _ => rfl)).2.2.2,
    ((buildIIFE_buildNode_outputs quietEnv emptyWorld rfl (fun _ _ => rfl)).2.2.2.2.2.2.2
      (fun _ _ => rfl)).2.2.2⟩

/-! ## The configuration of the stylesheet build -/

/-- C6: for every boolean `minify` flag, whatever the other flags, `buildCSS`
issues one bundler call, whose configuration has `minify` equal to the flag
and outfile `dist/lib.min.css` and has the value of the module-level
`buildConfig` in the fields `bundle`, `color`, `legalComments`, `logLimit`,
`target`, `sourcemap`, `write`, `logLevel` and `plugins`; the module-level
`buildConfig` is the same after the call as before it. -/
theorem buildCSS_config (env : Env) (w : World) (iife node : Flag) (minify : Bool) :
    ∃ cfg : Config,
      issued (buildCSS ⟨iife, node, some minify⟩) env w = [Action.build cfg]
      ∧ cfg.minify = some minify
      ∧ cfg.outfile = some "dist/lib.min.css"
      ∧ cfg.bundle = w.buildConfig.bundle
      ∧ cfg.color = w.buildConfig.color
      ∧ cfg.legalComments = w.buildConfig.legalComments
      ∧ cfg.logLimit = w.buildConfig.logLimit
      ∧ cfg.target = w.buildConfig.target
      ∧ cfg.sourcemap = w.buildConfig.sourcemap
      ∧ cfg.write = w.buildConfig.write
      ∧ cfg.logLevel = w.buildConfig.logLevel
      ∧ cfg.plugins = w.buildConfig.plugins
      ∧ (buildCSS ⟨iife, node, some minify⟩ env w).2.buildConfig = w.buildConfig := by
  refine ⟨{ w.buildConfig with
    minify := some minify
    entryPoints := ["src/themes/index.scss"]
    outfile := some (path_join "dist" "lib.min.css") }, ?_, rfl, ?_, rfl, rfl, rfl, rfl,
    rfl, rfl, rfl, rfl, rfl, ?_⟩
  · exact issued_perform _ env w
  · exact congrArg some path_css
  · exact perform_config _ env w

/-- The entry point of the stylesheet call is the stylesheet source, not the
entry point of the base configuration. -/
theorem buildCSS_entryPoints (o : Options) :
    (cssConfig o.minify).entryPoints = ["src/themes/index.scss"] ∧
    buildConfig.entryPoints = ["src/index.js"] := ⟨rfl, rfl⟩

/-! ## Lemmas on the handlers and on the configurations issued -/

theorem devHandler_ready_runs :
    RunsAs (devHandler WatchEvent.ready) (regenerateSteps iifeOnly ++ [Action.startServer]) :=
  RunsAs.bind (regenerate_runs iifeOnly) (RunsAs.perform _)

theorem devHandler_change_eq (env : Env) (w : World) (hc : w.buildConfig = buildConfig) :
    devHandler WatchEvent.change env w = runSeq (changeSteps env w) env w := by
  unfold changeSteps
  rw [runSeq_append]
  show Async.bind (regenerate iifeOnly) _ env w = _
  simp only [Async.bind]
  rw [← regenerate_runs iifeOnly env w hc]
  rcases hp : regenerate iifeOnly env w with ⟨r, w1⟩
  cases r with
  | error e => rfl
  | ok x => exact (runSeq_one _ env w1).symm

theorem issuedOf_append_one {env : Env} {log steps : List Action} (x : Action)
    (h : allFulfilled env log steps = true) :
    issuedOf env log (steps ++ [x]) = steps ++ [x] := by
  induction steps generalizing log with
  | nil =>
    simp only [List.nil_append, issuedOf]
    cases env.fails log x <;> rfl
  | cons a as ih =>
    simp only [allFulfilled, Bool.and_eq_true, Option.isNone_iff_eq_none] at h
    rw [List.cons_append, issuedOf]
    simp only [h.1]
    exact congrArg (List.cons a) (ih h.2)


theorem runSeq_log_of_fulfilled {env : Env} {w : World} {steps : List Action} (x : Action)
    (h : allFulfilled env w.log steps = true) :
    (runSeq (steps ++ [x]) env w).2.log = w.log ++ (steps ++ [x]) := by
  rw [runSeq_log, issuedOf_append_one x h]

theorem emit_config (ev : WatchEvent) (env : Env) (w : World)
    (hc : w.buildConfig = buildConfig) : (emit ev env w).2.buildConfig = buildConfig := by
  show (devHandler ev env w).2.buildConfig = buildConfig
  cases ev with
  | ready => rw [devHandler_ready_runs env w hc, runSeq_config, hc]
  | change => rw [devHandler_change_eq env w hc, runSeq_config, hc]

theorem regenerate_fulfilled {env : Env}
    (hrm : ∀ log path, env.fails log (Action.remove path) = none)
    (hbuild : ∀ log cfg, env.fails log (Action.build cfg) = none)
    (o : Options) (log : List Action) :
    allFulfilled env log (regenerateSteps o) = true := by
  apply allFulfilled_of_forall
  intro a ha l
  unfold regenerateSteps modulesSteps at ha
  simp only [List.mem_append, List.mem_cons, List.mem_singleton, List.not_mem_nil,
    or_false] at ha
  rcases ha with ((h | h) | (h | h)) | h
  · rw [h]; exact hrm l _
  · rw [h]; exact hrm l _
  · split at h
    · rw [List.mem_singleton.mp h]; exact hbuild l _
    · cases h
  · split at h
    · rw [List.mem_singleton.mp h]; exact hbuild l _
    · cases h
  · rw [h]; exact hbuild l _

theorem emit_ready_log {env : Env} (w : World) (hc : w.buildConfig = buildConfig)
    (hrm : ∀ log path, env.fails log (Action.remove path) = none)
    (hbuild : ∀ log cfg, env.fails log (Action.build cfg) = none) :
    (emit WatchEvent.ready env w).2.log
      = w.log ++ (iifeRegeneration ++ [Action.startServer]) := by
  show (devHandler WatchEvent.ready env w).2.log = _
  rw [devHandler_ready_runs env w hc]
  exact runSeq_log_of_fulfilled _ (regenerate_fulfilled hrm hbuild iifeOnly w.log)

theorem emit_change_log {env : Env} (w : World) (hc : w.buildConfig = buildConfig)
    (hrm : ∀ log path, env.fails log (Action.remove path) = none)
    (hbuild : ∀ log cfg, env.fails log (Action.build cfg) = none) :
    ∃ text, (emit WatchEvent.change env w).2.log
      = w.log ++ (iifeRegeneration ++ [Action.echo "green" text]) := by
  refine ⟨"regenerate lib takes " ++
    toString (env.now (regenerate iifeOnly env w).2.log - env.now w.log) ++ " ms", ?_⟩
  show (devHandler WatchEvent.change env w).2.log = _
  rw [devHandler_change_eq env w hc]
  exact runSeq_log_of_fulfilled _ (regenerate_fulfilled hrm hbuild iifeOnly w.log)

theorem emitAll_changes_log {env : Env}
    (hrm : ∀ log path, env.fails log (Action.remove path) = none)
    (hbuild : ∀ log cfg, env.fails log (Action.build cfg) = none)
    (n : Nat) (w : World) (hc : w.buildConfig = buildConfig) :
    ∃ acts, (emitAll (List.replicate n WatchEvent.change) env w).2.log = w.log ++ acts
      ∧ acts.filter (fun a => !isEcho a) = (List.replicate n iifeRegeneration).flatten := by
  induction n generalizing w with
  | zero => exact ⟨[], by simp [emitAll, Async.pure], rfl⟩
  | succ k ih =>
    obtain ⟨text, ht⟩ := emit_change_log w hc hrm hbuild
    obtain ⟨acts, ha, hf⟩ := ih (emit WatchEvent.change env w).2 (emit_config _ env w hc)
    refine ⟨(iifeRegeneration ++ [Action.echo "green" text]) ++ acts, ?_, ?_⟩
    · show (emitAll (List.replicate k WatchEvent.change) env
        (emit WatchEvent.change env w).2).2.log = _
      rw [ha, ht, List.append_assoc]
    · rw [List.replicate_succ, List.flatten_cons, List.filter_append, hf]
      rfl


theorem js_minify {cfg : Config}
    (h : cfg = iifeConfig ∨ cfg = nodeConfig ∨ ∃ m, cfg = cssConfig m)
    (hj : isJsBundle cfg) : cfg.minify = some false := by
  rcases h with h | h | ⟨m, h⟩
  · rw [h]; rfl
  · rw [h]; rfl
  · rw [h] at hj
    rcases hj with hj | hj <;> simp [cssConfig] at hj

theorem mem_modulesSteps {o : Options} {cfg : Config}
    (h : Action.build cfg ∈ modulesSteps o) : cfg = iifeConfig ∨ cfg = nodeConfig := by
  unfold modulesSteps at h
  rcases List.mem_append.mp h with h | h
  · split at h
    · exact Or.inl (Action.build.inj (List.mem_singleton.mp h))
    · cases h
  · split at h
    · exact Or.inr (Action.build.inj (List.mem_singleton.mp h))
    · cases h

theorem mem_regenerateSteps {o : Options} {cfg : Config}
    (h : Action.build cfg ∈ regenerateSteps o) :
    cfg = iifeConfig ∨ cfg = nodeConfig ∨ ∃ m, cfg = cssConfig m := by
  unfold regenerateSteps at h
  rcases List.mem_append.mp h with h | h
  · rcases List.mem_append.mp h with h | h
    · simp at h
    · rcases mem_modulesSteps h with h | h
      · exact Or.inl h
      · exact Or.inr (Or.inl h)
  · exact Or.inr (Or.inr ⟨_, Action.build.inj (List.mem_singleton.mp h)⟩)

theorem mem_issued_devHandler {ev : WatchEvent} {env : Env} {w : World}
    (hc : w.buildConfig = buildConfig) {cfg : Config}
    (h : Action.build cfg ∈ issued (devHandler ev) env w) :
    Action.build cfg ∈ regenerateSteps iifeOnly := by
  cases ev with
  | ready =>
    have := mem_of_mem_issued devHandler_ready_runs hc h
    rcases List.mem_append.mp this with h | h
    · exact h
    · simp at h
  | change =>
    rw [issued_of_eq (devHandler_change_eq env w hc)] at h
    obtain ⟨r, hr⟩ := issuedOf_isPrefix env w.log (changeSteps env w)
    have : Action.build cfg ∈ changeSteps env w := by
      rw [← hr]; exact List.mem_append_left r h
    rcases List.mem_append.mp this with h | h
    · exact h
    · simp at h

/-! ## Minification of the JavaScript bundles -/

/-- C10: the base value of `minify` is `false`, and for every flag set, also
one whose `minify` flag is `true`, every configuration `buildModules` hands to
the bundler has `minify` equal to `false`; `buildModules` is the same task
whatever the `minify` flag; in each of `buildIIFE`, `buildNode`, `build`, the
two watch handlers and `regenerate`, every bundler call that writes
`dist/lib.min.js` or `dist/index.cjs` has `minify` equal to `false`; and the
only other bundler call of a regeneration, the stylesheet call, has `minify`
equal to the flag. -/
theorem buildModules_ignores_minify (env : Env) (w : World) (options : Options)
    (hc : w.buildConfig = buildConfig) :
    buildConfig.minify = some false
    ∧ (∀ cfg, Action.build cfg ∈ issued (buildModules options) env w →
        cfg.minify = some false)
    ∧ (∀ m : Flag, buildModules ⟨options.iife, options.node, m⟩ = buildModules options)
    ∧ (∀ t ∈ [buildIIFE, buildNode, build, devHandler WatchEvent.ready,
          devHandler WatchEvent.change, regenerate options],
        ∀ cfg, Action.build cfg ∈ issued t env w → isJsBundle cfg →
          cfg.minify = some false)
    ∧ (∀ cfg, Action.build cfg ∈ issued (regenerate options) env w → ¬ isJsBundle cfg →
        cfg.minify = options.minify) := by
  refine ⟨rfl, ?_, fun m => rfl, ?_, ?_⟩
  · intro cfg h
    rcases mem_modulesSteps (mem_of_mem_issued (buildModules_runs options) hc h) with h | h <;>
      rw [h] <;> rfl
  · intro t ht cfg h hj
    simp only [List.mem_cons, List.mem_singleton, List.not_mem_nil, or_false] at ht
    rcases ht with ht | ht | ht | ht | ht | ht <;> subst ht
    · have := mem_of_mem_issued buildIIFE_runs hc h
      simp only [List.mem_cons, List.mem_singleton, List.not_mem_nil, or_false,
        Action.build.injEq] at this
      exact js_minify (this.elim Or.inl (fun h => Or.inr (Or.inr ⟨_, h⟩))) hj
    · have := mem_of_mem_issued buildNode_runs hc h
      simp only [List.mem_cons, List.mem_singleton, List.not_mem_nil, or_false,
        Action.build.injEq] at this
      exact js_minify (this.elim (fun h => Or.inr (Or.inl h))
        (fun h => Or.inr (Or.inr ⟨_, h⟩))) hj
    · have := mem_of_mem_issued build_runs hc h
      simp only [List.mem_cons, List.mem_singleton, List.not_mem_nil, or_false,
        Action.build.injEq] at this
      exact js_minify (this.elim Or.inl (fun h =>
        h.elim (fun h => Or.inr (Or.inl h)) (fun h => Or.inr (Or.inr ⟨_, h⟩)))) hj
    · exact js_minify (mem_regenerateSteps (mem_issued_devHandler hc h)) hj
    · exact js_minify (mem_regenerateSteps (mem_issued_devHandler hc h)) hj
    · exact js_minify (mem_regenerateSteps
        (mem_of_mem_issued (regenerate_runs options) hc h)) hj
  · intro cfg h hj
    have h' := mem_of_mem_issued (regenerate_runs options) hc h
    unfold regenerateSteps at h'
    rcases List.mem_append.mp h' with h' | h'
    · rcases List.mem_append.mp h' with h' | h'
      · simp at h'
      · exfalso
        apply hj
        rcases mem_modulesSteps h' with h' | h' <;> rw [h']
        · exact Or.inl rfl
        · exact Or.inr rfl
    · rw [Action.build.inj (List.mem_singleton.mp h')]; rfl

/-- Witness of C10 on the flag set `{ iife: true, node: true, minify: true }`
in an environment that rejects nothing. -/
theorem buildModules_ignores_minify_witness :
    emptyWorld.buildConfig = buildConfig ∧
    (∀ cfg, Action.build cfg
        ∈ issued (buildModules ⟨some true, some true, some true⟩) quietEnv emptyWorld →
      cfg.minify = some false) :=
  ⟨rfl, (buildModules_ignores_minify quietEnv emptyWorld
    ⟨some true, some true, some true⟩ rfl).2.1⟩

/-! ## The watch handlers -/

theorem count_flatten_replicate (a : Action) (xs : List Action) (n : Nat) :
    (List.replicate n xs).flatten.count a = n * xs.count a := by
  induction n with
  | zero => simp
  | succ k ih =>
    rw [List.replicate_succ, List.flatten_cons, List.count_append, ih, Nat.succ_mul, Nat.add_comm]

theorem count_filter_echo (a : Action) (h : isEcho a = false) (l : List Action) :
    (l.filter (fun a => !isEcho a)).count a = l.count a :=
  List.count_filter (by simp [h])

theorem issued_of_log {t : Async Unit} {env : Env} {w : World} {acts : List Action}
    (h : (t env w).2.log = w.log ++ acts) : issued t env w = acts := by
  unfold issued; rw [h]; simp

/-- C9: when every removal and every bundler call is fulfilled, the `ready`
handler issues one regeneration with `{ iife: true }` and then the server
launch, the `change` handler issues one regeneration with `{ iife: true }` and
then only the timing message; so over one `ready` followed by `n` `change`
events the actions other than messages are that regeneration, the server
launch, and `n` more such regenerations: the server is launched exactly once,
right after the first regeneration, and the browser bundle is built `n + 1`
times. -/
theorem dev_events (env : Env) (w : World) (n : Nat) (hc : w.buildConfig = buildConfig)
    (hrm : ∀ log path, env.fails log (Action.remove path) = none)
    (hbuild : ∀ log cfg, env.fails log (Action.build cfg) = none) :
    issued (emit WatchEvent.ready) env w = iifeRegeneration ++ [Action.startServer]
    ∧ (∃ text, issued (emit WatchEvent.change) env w
        = iifeRegeneration ++ [Action.echo "green" text])
    ∧ (issued (emitAll (WatchEvent.ready :: List.replicate n WatchEvent.change)) env w).filter
          (fun a => !isEcho a)
        = iifeRegeneration ++ Action.startServer ::
            (List.replicate n iifeRegeneration).flatten
    ∧ (issued (emitAll (WatchEvent.ready :: List.replicate n WatchEvent.change)) env w).count
          Action.startServer = 1
    ∧ (issued (emitAll (WatchEvent.ready :: List.replicate n WatchEvent.change)) env w).count
          (Action.build iifeConfig) = n + 1
    ∧ iifeRegeneration ++ [Action.startServer]
        <+: issued (emitAll (WatchEvent.ready :: List.replicate n WatchEvent.change)) env w := by
  have hready := emit_ready_log w hc hrm hbuild
  obtain ⟨text, hchange⟩ := emit_change_log w hc hrm hbuild
  obtain ⟨acts, ha, hf⟩ := emitAll_changes_log hrm hbuild n
    (emit WatchEvent.ready env w).2 (emit_config _ env w hc)
  have hall : issued (emitAll (WatchEvent.ready :: List.replicate n WatchEvent.change)) env w
      = (iifeRegeneration ++ [Action.startServer]) ++ acts := by
    apply issued_of_log
    show (emitAll (List.replicate n WatchEvent.change) env
      (emit WatchEvent.ready env w).2).2.log = _
    rw [ha, hready, List.append_assoc]
  have hfilter : (issued (emitAll (WatchEvent.ready :: List.replicate n WatchEvent.change))
      env w).filter (fun a => !isEcho a)
        = iifeRegeneration ++ Action.startServer ::
            (List.replicate n iifeRegeneration).flatten := by
    rw [hall, List.filter_append, hf]
    rfl
  refine ⟨issued_of_log hready, ⟨text, issued_of_log hchange⟩, hfilter, ?_, ?_,
    ⟨acts, hall.symm⟩⟩
  · have h0 : iifeRegeneration.count Action.startServer = 0 := by decide
    rw [← count_filter_echo Action.startServer rfl, hfilter, List.count_append, List.count_cons,
      count_flatten_replicate, h0]
    simp
  · have h1 : iifeRegeneration.count (Action.build iifeConfig) = 1 := by decide
    rw [← count_filter_echo (Action.build iifeConfig) rfl, hfilter, List.count_append, List.count_cons,
      count_flatten_replicate, h1]
    simp
    omega

/-- Witness of C9: one `ready` and two `change` events in an environment that
rejects nothing launch the server once. -/
theorem dev_events_witness :
    (emptyWorld.buildConfig = buildConfig
      ∧ (∀ log path, quietEnv.fails log (Action.remove path) = none)
      ∧ (∀ log cfg, quietEnv.fails log (Action.build cfg) = none))
    ∧ (issued (emitAll (WatchEvent.ready :: List.replicate 2 WatchEvent.change))
        quietEnv emptyWorld).count Action.startServer = 1 :=
  ⟨⟨rfl, fun _ _ => rfl, fun _ _ => rfl⟩,
    (dev_events quietEnv emptyWorld 2 rfl (fun _ _ => rfl) (fun _ _ => rfl)).2.2.2.1⟩

/-! ## Stale outputs -/

/-- C7 fails as stated: after `buildNode`, a regeneration with `{ iife: true }`
in which nothing is rejected ends with a fresh `dist/lib.min.js` next to the
`dist/index.cjs` of the earlier run. -/
theorem regenerate_keeps_stale_cjs :
    staleWorld.buildConfig = buildConfig
    ∧ (regenerate iifeOnly quietEnv staleWorld).1 = Except.ok ()
    ∧ (regenerate iifeOnly quietEnv staleWorld).2.fs "dist/lib.min.js"
        = some ⟨[1], staleWorld.log.length + 2⟩
    ∧ ¬ NoStale staleWorld.log.length buildOutputs
        (regenerate iifeOnly quietEnv staleWorld).2 :=
  ⟨rfl, rfl, by decide,
    fun h => absurd (h "dist/index.cjs" (by decide) ⟨[1], 0⟩ (by decide)) (by decide)⟩

theorem perform_noStale (start : Nat) (paths : List String) (a : Action) (env : Env)
    (w : World) (hlen : start ≤ w.log.length) (h : NoStale start paths w) :
    start ≤ (perform a env w).2.log.length ∧ NoStale start paths (perform a env w).2 := by
  unfold perform
  cases env.fails w.log a with
  | some e =>
    refine ⟨?_, h⟩
    simp only [World.rejected, List.length_append]; omega
  | none =>
    refine ⟨?_, ?_⟩
    · simp only [World.fulfilled, List.length_append]; omega
    · intro p hp f hf
      simp only [World.fulfilled] at hf
      cases a with
      | remove path =>
        simp only [effect, FS.erase] at hf
        split at hf
        · cases hf
        · exact h p hp f hf
      | build cfg =>
        simp only [effect] at hf
        cases hw : cfg.write <;> cases ho : cfg.outfile <;> simp only [hw, ho] at hf
        · exact h p hp f hf
        · exact h p hp f hf
        · exact h p hp f hf
        · simp only [FS.write] at hf
          split at hf
          · cases hf; exact hlen
          · exact writeAll_noStale _ _ _ _ p hlen (h p hp) f hf
      | startServer => exact h p hp f hf
      | echo c t => exact h p hp f hf
      | watch g o => exact h p hp f hf

theorem runSeq_noStale (start : Nat) (paths : List String) (steps : List Action) (env : Env)
    (w : World) (hlen : start ≤ w.log.length) (h : NoStale start paths w) :
    NoStale start paths (runSeq steps env w).2 := by
  induction steps generalizing w with
  | nil => exact h
  | cons a as ih =>
    have hp := perform_noStale start paths a env w hlen h
    simp only [runSeq, Async.bind]
    rcases hq : perform a env w with ⟨r, w1⟩
    rw [hq] at hp
    cases r with
    | error e => exact hp.2
    | ok u => exact ih w1 hp.1 hp.2

theorem clean_noStale (env : Env) (w : World) (rest : List Action)
    (h1 : env.fails w.log (Action.remove "dist/lib.min.js") = none)
    (h2 : env.fails (w.log ++ [Action.remove "dist/lib.min.js"])
      (Action.remove "dist/lib.min.css") = none) :
    NoStale w.log.length ["dist/lib.min.js", "dist/lib.min.css"]
      (runSeq (Action.remove "dist/lib.min.js" :: Action.remove "dist/lib.min.css" :: rest)
        env w).2 := by
  rw [runSeq_cons_ok _ h1, runSeq_cons_ok _ (by simpa [World.fulfilled] using h2)]
  apply runSeq_noStale
  · simp [World.fulfilled]
  · intro p hp f hf
    simp only [List.mem_cons, List.mem_singleton, List.not_mem_nil, or_false] at hp
    rcases hp with hp | hp <;> subst hp <;>
      simp [World.fulfilled, effect, FS.erase] at hf

/-- C7 as amended: for every flag set and every initial output tree, once the
two removals are fulfilled, neither `dist/lib.min.js` nor `dist/lib.min.css`
holds bytes written before the cycle began, at every later point of the cycle
(after the first `k` steps, for every `k` from two on) and in the world
`regenerate` leaves, whether it is fulfilled or rejected at a later step. -/
theorem regenerate_removed_not_stale (env : Env) (w : World) (option : Options)
    (hc : w.buildConfig = buildConfig)
    (h1 : env.fails w.log (Action.remove "dist/lib.min.js") = none)
    (h2 : env.fails (w.log ++ [Action.remove "dist/lib.min.js"])
      (Action.remove "dist/lib.min.css") = none) :
    (∀ k, 2 ≤ k → NoStale w.log.length ["dist/lib.min.js", "dist/lib.min.css"]
        (runSeq ((regenerateSteps option).take k) env w).2)
    ∧ NoStale w.log.length ["dist/lib.min.js", "dist/lib.min.css"]
        (regenerate option env w).2 := by
  have hs : regenerateSteps option = Action.remove "dist/lib.min.js" ::
      Action.remove "dist/lib.min.css" ::
        (modulesSteps option ++ [Action.build (cssConfig option.minify)]) := rfl
  constructor
  · intro k hk
    obtain ⟨j, rfl⟩ : ∃ j, k = j + 2 := ⟨k - 2, by omega⟩
    rw [hs]
    exact clean_noStale env w _ h1 h2
  · rw [regenerate_runs option env w hc, hs]
    exact clean_noStale env w _ h1 h2

theorem issuedOf_append_isPrefix (env : Env) (log xs ys : List Action) :
    issuedOf env log xs <+: issuedOf env log (xs ++ ys) := by
  induction xs generalizing log with
  | nil => exact ⟨_, rfl⟩
  | cons a as ih =>
    rw [List.cons_append, issuedOf, issuedOf]
    cases env.fails log a with
    | some e => exact ⟨[], rfl⟩
    | none =>
      obtain ⟨t, ht⟩ := ih (log ++ [a])
      exact ⟨t, by simp only [List.cons_append, ht]⟩

/-- Witness of the amended C7 on the world `buildNode` left. -/
theorem regenerate_removed_not_stale_witness :
    (staleWorld.buildConfig = buildConfig
      ∧ quietEnv.fails staleWorld.log (Action.remove "dist/lib.min.js") = none
      ∧ quietEnv.fails (staleWorld.log ++ [Action.remove "dist/lib.min.js"])
          (Action.remove "dist/lib.min.css") = none)
    ∧ NoStale staleWorld.log.length ["dist/lib.min.js", "dist/lib.min.css"]
        (regenerate iifeOnly quietEnv staleWorld).2 :=
  ⟨⟨rfl, rfl, rfl⟩, (regenerate_removed_not_stale quietEnv staleWorld iifeOnly rfl rfl rfl).2⟩

/-! ## Which tasks go through `regenerate` -/

/-- C8 fails as stated: from a fresh checkout with nothing rejected, none of
the one-shot tasks starts with the two removals; `buildIIFE` issues the two
bundler calls and nothing else. -/
theorem one_shot_tasks_do_not_clean :
    ¬ ([Action.remove "dist/lib.min.js", Action.remove "dist/lib.min.css"]
        <+: issued buildIIFE quietEnv emptyWorld)
    ∧ ¬ ([Action.remove "dist/lib.min.js", Action.remove "dist/lib.min.css"]
        <+: issued buildNode quietEnv emptyWorld)
    ∧ ¬ ([Action.remove "dist/lib.min.js", Action.remove "dist/lib.min.css"]
        <+: issued build quietEnv emptyWorld)
    ∧ issued buildIIFE quietEnv emptyWorld
        = [Action.build iifeConfig, Action.build (cssConfig (some true))] := by
  decide

/-- C8 as amended: only the watch handlers rebuild through `regenerate`.  The
actions of either handler begin with the actions `regenerate` issues for
`{ iife: true }`, which are the two removals, the browser call and the
stylesheet call when none of these is rejected, followed by the server launch
(`ready`) or the timing message (`change`).  The one-shot tasks `buildIIFE`,
`buildNode` and `build` call the builders directly and issue no removal. -/
theorem rebuilds_through_regenerate (env : Env) (w : World)
    (hc : w.buildConfig = buildConfig) :
    (∀ ev, issued (regenerate iifeOnly) env w <+: issued (devHandler ev) env w)
    ∧ ((∀ log path, env.fails log (Action.remove path) = none) →
        (∀ log cfg, env.fails log (Action.build cfg) = none) →
        issued (devHandler WatchEvent.ready) env w
            = iifeRegeneration ++ [Action.startServer]
          ∧ ∃ text, issued (devHandler WatchEvent.change) env w
            = iifeRegeneration ++ [Action.echo "green" text])
    ∧ (∀ t ∈ [buildIIFE, buildNode, build], ∀ path,
        Action.remove path ∉ issued t env w) := by
  refine ⟨?_, ?_, ?_⟩
  · intro ev
    rw [issued_of_runs (regenerate_runs iifeOnly) env w hc]
    cases ev with
    | ready =>
      rw [issued_of_runs devHandler_ready_runs env w hc]
      exact issuedOf_append_isPrefix env w.log _ _
    | change =>
      rw [issued_of_eq (devHandler_change_eq env w hc)]
      exact issuedOf_append_isPrefix env w.log _ _
  · intro hrm hbuild
    obtain ⟨text, ht⟩ := emit_change_log w hc hrm hbuild
    exact ⟨issued_of_log (emit_ready_log w hc hrm hbuild), text, issued_of_log ht⟩
  · intro t ht path hmem
    simp only [List.mem_cons, List.mem_singleton, List.not_mem_nil, or_false] at ht
    rcases ht with ht | ht | ht <;> subst ht
    · have := mem_of_mem_issued buildIIFE_runs hc hmem
      simp at this
    · have := mem_of_mem_issued buildNode_runs hc hmem
      simp at this
    · have := mem_of_mem_issued build_runs hc hmem
      simp at this

/-- Witness of the amended C8 from a fresh checkout with nothing rejected. -/
theorem rebuilds_through_regenerate_witness :
    emptyWorld.buildConfig = buildConfig
    ∧ (∀ path, Action.remove path ∉ issued build quietEnv emptyWorld) :=
  ⟨rfl, fun path => (rebuilds_through_regenerate quietEnv emptyWorld rfl).2.2
    build (by simp) path⟩

end Gulpfile
